import Mathlib

/-!
Verification of the OmniScreen storage/history subsystem and the
region-selection overlay: a shallow embedding of `core/storage.py` and
`gui/region_selector.py`.  Strings are modelled as `List Char`, the
filesystem as the list of paths that currently exist, and the SQLite
catalog as a list of records.  Recursive scanners are written with
explicit fuel so that they evaluate inside the kernel on concrete inputs.
-/

namespace Omniscreen

/-- Strings are modelled as lists of characters. -/
abbrev Str := List Char

/-- ASCII lower-casing; SQLite's `LIKE` folds case exactly for the ASCII
letters A-Z. -/
def lowAscii (c : Char) : Char :=
  if 'A' ≤ c ∧ c ≤ 'Z' then Char.ofNat (c.toNat + 32) else c

/-- One decimal digit as a character (Python's `str` prints counters in
decimal). -/
def digitChar10 (d : Nat) : Char :=
  match d with
  | 0 => '0' | 1 => '1' | 2 => '2' | 3 => '3' | 4 => '4'
  | 5 => '5' | 6 => '6' | 7 => '7' | 8 => '8' | _ => '9'

/-- Fuel-driven decimal printer: the digits of `n` prepended to `acc`. -/
def natDecAux : Nat → Nat → Str → Str
  | 0, _, acc => acc
  | fuel + 1, n, acc =>
      if n = 0 then acc else natDecAux fuel (n / 10) (digitChar10 (n % 10) :: acc)

/-- Decimal rendering of a natural number, as Python's `str`. -/
def natDec (n : Nat) : Str :=
  if n = 0 then ['0'] else natDecAux n n []

/-- Numeric value of a decimal digit character. -/
def digitVal (c : Char) : Nat := c.toNat - 48

/-- Numeric value of a decimal string (most significant digit first). -/
def decVal (s : Str) : Nat := s.foldl (fun a c => 10 * a + digitVal c) 0

lemma digitVal_digitChar10 (d : Nat) (h : d < 10) : digitVal (digitChar10 d) = d := by
  interval_cases d <;> decide

lemma natDecAux_append (fuel : Nat) : ∀ n acc, natDecAux fuel n acc = natDecAux fuel n [] ++ acc := by
  induction fuel with
  | zero => intro n acc; simp [natDecAux]
  | succ fuel ih =>
      intro n acc
      by_cases hn : n = 0
      · simp [natDecAux, hn]
      · rw [natDecAux, natDecAux, if_neg hn, if_neg hn, ih (n / 10) (digitChar10 (n % 10) :: acc),
          ih (n / 10) [digitChar10 (n % 10)], List.append_assoc]
        rfl

lemma decVal_natDecAux (fuel : Nat) : ∀ n, n ≤ fuel →
    List.foldl (fun a c => 10 * a + digitVal c) 0 (natDecAux fuel n []) = n := by
  induction fuel with
  | zero => intro n hn; interval_cases n; simp [natDecAux]
  | succ fuel ih =>
      intro n hn
      by_cases hz : n = 0
      · simp [natDecAux, hz]
      · rw [natDecAux, if_neg hz, natDecAux_append, List.foldl_append]
        have hdiv : n / 10 ≤ fuel := by
          have : n / 10 < n := Nat.div_lt_self (Nat.pos_of_ne_zero hz) (by norm_num)
          omega
        rw [ih (n / 10) hdiv]
        simp only [List.foldl_cons, List.foldl_nil]
        rw [digitVal_digitChar10 (n % 10) (Nat.mod_lt n (by norm_num))]
        exact Nat.div_add_mod n 10

lemma decVal_natDec (n : Nat) : decVal (natDec n) = n := by
  by_cases hz : n = 0
  · subst hz; decide
  · rw [natDec, if_neg hz]; exact decVal_natDecAux n n le_rfl

lemma natDec_inj {m n : Nat} (h : natDec m = natDec n) : m = n := by
  have := congrArg decVal h
  rwa [decVal_natDec, decVal_natDec] at this

/-! ## Collision resolver (`save_screenshot`, storage.py lines 173-180)

Within one call every probed path lives in the same directory, so a path is
identified by its filename there.  `original_filepath` has stem `stem` and
extension `suffix`; the loop probes `stem ++ suffix` first and then
`stem_1.suffix`, `stem_2.suffix`, ... -/

/-- The candidate filename for counter value `k` (`k = 0` is the original
filename, `k ≥ 1` is Python's `f"{stem}_{counter}{suffix}"`). -/
def candidate (stem fext : Str) : Nat → Str
  | 0 => stem ++ fext
  | k + 1 => stem ++ '_' :: (natDec (k + 1) ++ fext)

/-- The `while filepath.exists()` loop: starting from candidate index `k`,
return the first candidate that does not exist.  `fuel` bounds the search;
`resolvePath` supplies enough fuel for any finite filesystem. -/
def resolveLoop (fsE : Str → Bool) (stem fext : Str) : Nat → Nat → Option Str
  | 0, _ => none
  | fuel + 1, k =>
      if fsE (candidate stem fext k) then resolveLoop fsE stem fext fuel (k + 1)
      else some (candidate stem fext k)

/-- Collision resolution against the finite set `fs` of paths that exist in
the target directory. -/
def resolvePath (fs : List Str) (stem fext : Str) : Str :=
  (resolveLoop (fun p => decide (p ∈ fs)) stem fext (fs.length + 1) 0).getD (stem ++ fext)

/-- Saving `n` screenshots in a row into the same organizational bucket:
each save writes the resolved path, which therefore exists for the next
save.  Returns the list of returned paths, newest last. -/
def saveList (fs : List Str) (stem fext : Str) : Nat → List Str
  | 0 => []
  | n + 1 => resolvePath fs stem fext :: saveList (resolvePath fs stem fext :: fs) stem fext n

lemma candidate_inj (stem fext : Str) :
    ∀ j k, candidate stem fext j = candidate stem fext k → j = k := by
  have hlen : ∀ k, candidate stem fext (k + 1) = stem ++ '_' :: (natDec (k + 1) ++ fext) :=
    fun k => rfl
  intro j k h
  match j, k with
  | 0, 0 => rfl
  | 0, k + 1 =>
      exfalso
      have h' := List.append_cancel_left (h.trans (hlen k))
      have := congrArg List.length h'
      simp only [List.length_cons, List.length_append] at this
      omega
  | j + 1, 0 =>
      exfalso
      have h' := List.append_cancel_left ((hlen j).symm.trans h)
      have := congrArg List.length h'
      simp only [List.length_cons, List.length_append] at this
      omega
  | j + 1, k + 1 =>
      have h' := List.append_cancel_left ((hlen j).symm.trans (h.trans (hlen k)))
      have h'' : natDec (j + 1) ++ fext = natDec (k + 1) ++ fext := List.tail_eq_of_cons_eq h'
      exact natDec_inj (List.append_cancel_right h'')

lemma resolveLoop_spec (fsE : Str → Bool) (stem fext : Str) :
    ∀ fuel k, (∃ j < fuel, fsE (candidate stem fext (k + j)) = false) →
      ∃ m, resolveLoop fsE stem fext fuel k = some (candidate stem fext (k + m))
        ∧ fsE (candidate stem fext (k + m)) = false
        ∧ ∀ i < m, fsE (candidate stem fext (k + i)) = true := by
  intro fuel
  induction fuel with
  | zero => intro k h; obtain ⟨j, hj, _⟩ := h; omega
  | succ fuel ih =>
      intro k h
      by_cases hE : fsE (candidate stem fext k) = true
      · obtain ⟨j, hj, hfree⟩ := h
        match j, hfree with
        | 0, hfree => rw [Nat.add_zero, hE] at hfree; cases hfree
        | j + 1, hfree =>
            have hrec : ∃ j' < fuel, fsE (candidate stem fext (k + 1 + j')) = false := by
              refine ⟨j, by omega, ?_⟩
              have : k + 1 + j = k + (j + 1) := by omega
              rw [this]; exact hfree
            obtain ⟨m, hm, hfm, hmin⟩ := ih (k + 1) hrec
            refine ⟨m + 1, ?_, ?_, ?_⟩
            · rw [resolveLoop, if_pos hE]
              have : k + 1 + m = k + (m + 1) := by omega
              rw [this] at hm; exact hm
            · have : k + 1 + m = k + (m + 1) := by omega
              rw [this] at hfm; exact hfm
            · intro i hi
              match i with
              | 0 => simpa using hE
              | i + 1 =>
                  have : k + 1 + i = k + (i + 1) := by omega
                  rw [← this]; exact hmin i (by omega)
      · refine ⟨0, ?_, ?_, ?_⟩
        · rw [resolveLoop, if_neg hE]; simp
        · simpa using Bool.eq_false_iff.mpr hE
        · intro i hi; omega

lemma exists_free_candidate (fs : List Str) (stem fext : Str) :
    ∃ j < fs.length + 1, candidate stem fext j ∉ fs := by
  by_contra hall
  push_neg at hall
  have hsub : (Finset.range (fs.length + 1)).image (candidate stem fext) ⊆ fs.toFinset := by
    intro p hp
    obtain ⟨j, hj, rfl⟩ := Finset.mem_image.mp hp
    exact List.mem_toFinset.mpr (hall j (Finset.mem_range.mp hj))
  have hcard : ((Finset.range (fs.length + 1)).image (candidate stem fext)).card
      = fs.length + 1 := by
    rw [Finset.card_image_of_injOn (fun a _ b _ h => candidate_inj stem fext a b h)]
    exact Finset.card_range _
  have h1 := Finset.card_le_card hsub
  have h2 := List.toFinset_card_le fs
  omega

lemma resolvePath_spec (fs : List Str) (stem fext : Str) :
    resolvePath fs stem fext ∉ fs
    ∧ ∃ k, resolvePath fs stem fext = candidate stem fext k
        ∧ ∀ i < k, candidate stem fext i ∈ fs := by
  obtain ⟨j, hj, hfree⟩ := exists_free_candidate fs stem fext
  have hex : ∃ j' < fs.length + 1,
      (fun p => decide (p ∈ fs)) (candidate stem fext (0 + j')) = false := by
    refine ⟨j, hj, ?_⟩
    simpa using hfree
  obtain ⟨m, hm, hfm, hmin⟩ := resolveLoop_spec (fun p => decide (p ∈ fs)) stem fext
    (fs.length + 1) 0 hex
  have hres : resolvePath fs stem fext = candidate stem fext (0 + m) := by
    rw [resolvePath, hm]; rfl
  constructor
  · rw [hres]; simpa using hfm
  · refine ⟨m, by simpa using hres, fun i hi => ?_⟩
    have := hmin i hi
    simpa using this

lemma saveList_fresh (stem fext : Str) :
    ∀ n fs, (∀ r ∈ saveList fs stem fext n, r ∉ fs) ∧ (saveList fs stem fext n).Nodup := by
  intro n
  induction n with
  | zero => intro fs; simp [saveList]
  | succ n ih =>
      intro fs
      obtain ⟨hfreshrec, hnodup⟩ := ih (resolvePath fs stem fext :: fs)
      constructor
      · intro r hr
        rcases List.mem_cons.mp hr with h0 | hrest
        · subst h0; exact (resolvePath_spec fs stem fext).1
        · exact fun hmem => hfreshrec r hrest (List.mem_cons_of_mem _ hmem)
      · refine List.nodup_cons.mpr ⟨?_, hnodup⟩
        intro hmem
        exact hfreshrec _ hmem (List.mem_cons_self _ _)

/-! ## Python string primitives used by `generate_filename` / `get_save_path` -/

/-- Does `pat` occur at the very start of `t`? -/
def begins : Str → Str → Bool
  | [], _ => true
  | _ :: _, [] => false
  | c :: cs, d :: ds => decide (c = d) && begins cs ds

/-- Fuel-driven left-to-right non-overlapping replacement, one character or
one match consumed per step; `replaceAll` supplies `t.length` fuel, which is
always enough. -/
def replaceAllF (pat rep : Str) : Nat → Str → Str
  | 0, t => t
  | _ + 1, [] => []
  | fuel + 1, c :: ts =>
      if pat ≠ [] ∧ begins pat (c :: ts) = true then
        rep ++ replaceAllF pat rep fuel (List.drop pat.length (c :: ts))
      else c :: replaceAllF pat rep fuel ts

/-- Python's `t.replace(pat, rep)` for a non-empty pattern. -/
def replaceAll (t pat rep : Str) : Str := replaceAllF pat rep t.length t

/-- Python's `filename.split('_')`. -/
def splitU : Str → List Str
  | [] => [[]]
  | c :: ts =>
      match splitU ts with
      | [] => [[]]
      | h :: r => if c = '_' then [] :: h :: r else (c :: h) :: r

lemma replaceAllF_mem (pat rep : Str) :
    ∀ fuel t c, c ∈ replaceAllF pat rep fuel t → c ∈ t ∨ c ∈ rep := by
  intro fuel
  induction fuel with
  | zero => intro t c h; exact Or.inl h
  | succ fuel ih =>
      intro t c h
      match t with
      | [] => cases h
      | d :: ts =>
          by_cases hc : pat ≠ [] ∧ begins pat (d :: ts) = true
          · rw [replaceAllF, if_pos hc] at h
            rcases List.mem_append.mp h with hrep | hrec
            · exact Or.inr hrep
            · rcases ih _ c hrec with hdrop | hrep
              · exact Or.inl (List.drop_subset _ _ hdrop)
              · exact Or.inr hrep
          · rw [replaceAllF, if_neg hc] at h
            rcases List.mem_cons.mp h with h0 | hrec
            · exact Or.inl (h0 ▸ List.mem_cons_self _ _)
            · rcases ih ts c hrec with hts | hrep
              · exact Or.inl (List.mem_cons_of_mem _ hts)
              · exact Or.inr hrep

lemma replaceAll_mem (t pat rep : Str) (c : Char) (h : c ∈ replaceAll t pat rep) :
    c ∈ t ∨ c ∈ rep :=
  replaceAllF_mem pat rep t.length t c h

lemma replaceAll_cons_no_match (pat rep : Str) (c : Char) (ts : Str)
    (h : ¬(pat ≠ [] ∧ begins pat (c :: ts) = true)) :
    replaceAll (c :: ts) pat rep = c :: replaceAll ts pat rep := by
  show replaceAllF pat rep (ts.length + 1) (c :: ts) = _
  rw [replaceAllF, if_neg h]
  rfl

lemma replaceAll_passthrough (p rep t : Str) :
    ∀ s : Str, '.' ∉ s → replaceAll (s ++ t) ('.' :: p) rep = s ++ replaceAll t ('.' :: p) rep := by
  intro s
  induction s with
  | nil => intro _; rfl
  | cons c cs ih =>
      intro hd
      have hc : c ≠ '.' := fun h => hd (h ▸ List.mem_cons_self _ _)
      have hnb : ¬(('.' :: p) ≠ [] ∧ begins ('.' :: p) (c :: (cs ++ t)) = true) := by
        intro hcontra
        have := hcontra.2
        rw [begins] at this
        simp only [Bool.and_eq_true, decide_eq_true_eq] at this
        exact hc this.1.symm
      have step := replaceAll_cons_no_match ('.' :: p) rep c (cs ++ t) hnb
      calc replaceAll ((c :: cs) ++ t) ('.' :: p) rep
        = c :: replaceAll (cs ++ t) ('.' :: p) rep := step
      _ = c :: (cs ++ replaceAll t ('.' :: p) rep) := by
          rw [ih (fun h => hd (List.mem_cons_of_mem _ h))]
      _ = (c :: cs) ++ replaceAll t ('.' :: p) rep := rfl

lemma splitU_ne_nil (s : Str) : splitU s ≠ [] := by
  induction s with
  | nil => simp [splitU]
  | cons c ts ih =>
      rw [splitU]
      match hts : splitU ts with
      | [] => simp
      | h :: r => by_cases hc : c = '_' <;> simp [hc]

lemma splitU_cons (c : Char) (ts : Str) (hd : Str) (r : List Str) (hts : splitU ts = hd :: r) :
    splitU (c :: ts) = if c = '_' then [] :: hd :: r else (c :: hd) :: r := by
  rw [splitU, hts]

lemma splitU_length (s : Str) : (splitU s).length = s.count '_' + 1 := by
  induction s with
  | nil => simp [splitU]
  | cons c ts ih =>
      obtain ⟨hd, r, hts⟩ : ∃ hd r, splitU ts = hd :: r := by
        cases hsp : splitU ts with
        | nil => exact absurd hsp (splitU_ne_nil ts)
        | cons hd r => exact ⟨hd, r, rfl⟩
      rw [hts] at ih
      rw [splitU_cons c ts hd r hts]
      simp only [List.length_cons] at ih
      by_cases hc : c = '_'
      · subst hc
        rw [if_pos rfl]
        simp only [List.length_cons, List.count_cons, beq_self_eq_true, if_true]
        omega
      · rw [if_neg hc]
        have hbe : (c == '_') = false := by simp [hc]
        simp only [List.length_cons, List.count_cons, hbe, Bool.false_eq_true, if_false]
        omega

/-! ## Naming engine (`generate_filename`, storage.py lines 90-120) -/

/-- The characters the sanitizer keeps: Python's
`c.isalnum() or c in (' ', '-', '_')` (ASCII alphanumerics here; Python's
`isalnum` is Unicode-aware, but both versions exclude every path
separator). -/
def allowedChar (c : Char) : Bool :=
  c.isAlphanum || decide (c = ' ') || decide (c = '-') || decide (c = '_')

/-- Python's `str.strip()`: whitespace removed from both ends. -/
def pyStrip (s : Str) : Str :=
  ((s.dropWhile Char.isWhitespace).reverse.dropWhile Char.isWhitespace).reverse

/-- `safe_name = "".join(c for c in window_name if ...)` then
`.strip()[:50]`. -/
def sanitize_window (w : Str) : Str := (pyStrip (w.filter allowedChar)).take 50

/-- The literal token substituted when no window name is supplied. -/
def windowToken : Str := "screen".data

/-- `generate_filename`, taking the strftime-formatted pattern as input
(the pattern's date/time tokens are already substituted by `strftime`; the
function is a pure function of that formatted text, the optional window
name and the configured format extension).  An empty window name is falsy
in Python, hence treated like `None`. -/
def generate_filename (formatted : Str) (window_name : Option Str) (format_ext : Str) : Str :=
  let tok : Str :=
    match window_name with
    | some w => if w.isEmpty then windowToken else sanitize_window w
    | none => windowToken
  replaceAll formatted "{window}".data tok ++ '.' :: format_ext

/-- A path-separator character. -/
def isSep (c : Char) : Prop := c = '/' ∨ c = '\\'

instance (c : Char) : Decidable (isSep c) := inferInstanceAs (Decidable (_ ∨ _))

/-! ## Path organizer (`get_save_path`, storage.py lines 122-151) -/

def pngExt : Str := ".png".data

def jpgExt : Str := ".jpg".data

/-- The application-name token of `get_save_path`'s `application` branch:
`parts[-1].replace('.png', '').replace('.jpg', '') if len(parts) > 1 else
"unknown"`. -/
def app_name_of (filename : Str) : Str :=
  let parts := splitU filename
  if parts.length > 1 then replaceAll (replaceAll (parts.getLastD []) pngExt []) jpgExt []
  else "unknown".data

/-- `get_save_path`: the directory (as a list of segments under the base
root) and the filename.  `datePath` stands for the current date's
`YYYY/MM/DD` segments. -/
def get_save_path (organize_by : Str) (datePath : List Str) (base : List Str)
    (filename : Str) : List Str × Str :=
  if organize_by = "date".data then (base ++ datePath, filename)
  else if organize_by = "application".data then (base ++ [app_name_of filename], filename)
  else (base, filename)

/-- Modelled from the spec's words, for comparison with the code in C9:
the trailing underscore-separated segment with a trailing image extension
removed. -/
def specAppToken (filename : Str) : Str :=
  let parts := splitU filename
  if parts.length > 1 then
    let seg := parts.getLastD []
    if pngExt.isSuffixOf seg ∨ jpgExt.isSuffixOf seg then seg.take (seg.length - 4)
    else seg
  else "unknown".data

/-! ## SQLite `LIKE` (used by `get_history`'s search filter)

`get_history` filters with `column LIKE '%' || term || '%'`.  SQLite's
default `LIKE` is case-insensitive for the ASCII letters; `%` matches any
character sequence and `_` any single character. -/

/-- Fuel-driven `LIKE` matcher.  Every recursive call shrinks
`p.length + t.length`, so `likeMatch` below always supplies enough fuel. -/
def likeMatchF : Nat → Str → Str → Bool
  | 0, _, _ => false
  | _ + 1, [], t => t.isEmpty
  | fuel + 1, p :: ps, t =>
      if p = '%' then
        likeMatchF fuel ps t ||
          (match t with
           | [] => false
           | _ :: ts => likeMatchF fuel (p :: ps) ts)
      else
        match t with
        | [] => false
        | d :: ts =>
            if p = '_' then likeMatchF fuel ps ts
            else decide (lowAscii p = lowAscii d) && likeMatchF fuel ps ts

/-- SQLite `t LIKE p` (default case-insensitive semantics, no ESCAPE). -/
def likeMatch (p t : Str) : Bool := likeMatchF (p.length + t.length + 1) p t

/-- Case-insensitive "occurs at the start" (spec reading). -/
def startsCI : Str → Str → Bool
  | [], _ => true
  | _ :: _, [] => false
  | c :: cs, d :: ds => decide (lowAscii c = lowAscii d) && startsCI cs ds

/-- Modelled from the spec's words, for comparison with the code in C5:
`s` occurs as a case-insensitive substring of `t`. -/
def containsCI (s : Str) : Str → Bool
  | [] => startsCI s []
  | d :: ts => startsCI s (d :: ts) || containsCI s ts

/-- A search term that contains neither `LIKE` wildcard character. -/
def noWild (s : Str) : Prop := ∀ c ∈ s, c ≠ '%' ∧ c ≠ '_'

instance (s : Str) : Decidable (noWild s) :=
  inferInstanceAs (Decidable (∀ c ∈ s, c ≠ '%' ∧ c ≠ '_'))

lemma likeMatchF_step (fuel : Nat) (p : Char) (ps t : Str) :
    likeMatchF (fuel + 1) (p :: ps) t =
      if p = '%' then
        likeMatchF fuel ps t ||
          (match t with
           | [] => false
           | _ :: ts => likeMatchF fuel (p :: ps) ts)
      else
        match t with
        | [] => false
        | d :: ts =>
            if p = '_' then likeMatchF fuel ps ts
            else decide (lowAscii p = lowAscii d) && likeMatchF fuel ps ts := rfl

lemma likeMatchF_irrel : ∀ fuel fuel' p t, p.length + t.length < fuel →
    p.length + t.length < fuel' → likeMatchF fuel p t = likeMatchF fuel' p t := by
  intro fuel
  induction fuel with
  | zero => intro fuel' p t h _; omega
  | succ fuel ih =>
      intro fuel' p t h h'
      match fuel', h' with
      | fuel' + 1, h' =>
          match p with
          | [] => rfl
          | p :: ps =>
              simp only [List.length_cons] at h h'
              by_cases hp : p = '%'
              · rw [likeMatchF_step, likeMatchF_step, if_pos hp, if_pos hp]
                have h1 : likeMatchF fuel ps t = likeMatchF fuel' ps t :=
                  ih fuel' ps t (by omega) (by omega)
                rw [h1]
                match t with
                | [] => rfl
                | d :: ts =>
                    simp only [List.length_cons] at h h'
                    have h2 : likeMatchF fuel (p :: ps) ts = likeMatchF fuel' (p :: ps) ts :=
                      ih fuel' (p :: ps) ts (by simp only [List.length_cons]; omega)
                        (by simp only [List.length_cons]; omega)
                    show (likeMatchF fuel' ps (d :: ts) || likeMatchF fuel (p :: ps) ts)
                      = (likeMatchF fuel' ps (d :: ts) || likeMatchF fuel' (p :: ps) ts)
                    rw [h2]
              · rw [likeMatchF_step, likeMatchF_step, if_neg hp, if_neg hp]
                match t with
                | [] => rfl
                | d :: ts =>
                    simp only [List.length_cons] at h h'
                    have h3 : likeMatchF fuel ps ts = likeMatchF fuel' ps ts :=
                      ih fuel' ps ts (by omega) (by omega)
                    show (if p = '_' then likeMatchF fuel ps ts
                        else decide (lowAscii p = lowAscii d) && likeMatchF fuel ps ts)
                      = (if p = '_' then likeMatchF fuel' ps ts
                        else decide (lowAscii p = lowAscii d) && likeMatchF fuel' ps ts)
                    by_cases hu : p = '_'
                    · rw [if_pos hu, if_pos hu, h3]
                    · rw [if_neg hu, if_neg hu, h3]

lemma likeMatchF_pct_nil (fuel : Nat) (ps : Str) :
    likeMatchF (fuel + 1) ('%' :: ps) [] = (likeMatchF fuel ps [] || false) := rfl

lemma likeMatchF_pct_cons (fuel : Nat) (ps : Str) (d : Char) (ts : Str) :
    likeMatchF (fuel + 1) ('%' :: ps) (d :: ts)
      = (likeMatchF fuel ps (d :: ts) || likeMatchF fuel ('%' :: ps) ts) := rfl

lemma likeMatchF_lit_nil (fuel : Nat) (c : Char) (ps : Str) (hc : c ≠ '%') :
    likeMatchF (fuel + 1) (c :: ps) [] = false := by
  show (if c = '%' then _ else _) = false
  rw [if_neg hc]

lemma likeMatchF_lit_cons (fuel : Nat) (c : Char) (ps : Str) (d : Char) (ts : Str)
    (hc : c ≠ '%') (hu : c ≠ '_') :
    likeMatchF (fuel + 1) (c :: ps) (d :: ts)
      = (decide (lowAscii c = lowAscii d) && likeMatchF fuel ps ts) := by
  show (if c = '%' then _ else
    (if c = '_' then likeMatchF fuel ps ts
     else decide (lowAscii c = lowAscii d) && likeMatchF fuel ps ts)) = _
  rw [if_neg hc, if_neg hu]

lemma likeMatch_pct_nil (ps : Str) : likeMatch ('%' :: ps) [] = likeMatch ps [] := by
  rw [likeMatch, likeMatch, likeMatchF_pct_nil, Bool.or_false]
  exact likeMatchF_irrel _ _ ps [] (by simp) (by simp)

lemma likeMatch_pct_cons (ps : Str) (d : Char) (ts : Str) :
    likeMatch ('%' :: ps) (d :: ts) = (likeMatch ps (d :: ts) || likeMatch ('%' :: ps) ts) := by
  rw [likeMatch, likeMatch, likeMatch, likeMatchF_pct_cons]
  have h1 : likeMatchF (('%' :: ps).length + (d :: ts).length) ps (d :: ts)
      = likeMatchF (ps.length + (d :: ts).length + 1) ps (d :: ts) :=
    likeMatchF_irrel _ _ ps (d :: ts) (by simp) (by simp)
  have h2 : likeMatchF (('%' :: ps).length + (d :: ts).length) ('%' :: ps) ts
      = likeMatchF (('%' :: ps).length + ts.length + 1) ('%' :: ps) ts :=
    likeMatchF_irrel _ _ ('%' :: ps) ts (by simp) (by simp)
  rw [h1, h2]

lemma likeMatch_lit_nil (ps : Str) (c : Char) (hc : c ≠ '%') : likeMatch (c :: ps) [] = false := by
  rw [likeMatch, likeMatchF_lit_nil _ c ps hc]

lemma likeMatch_lit_cons (ps : Str) (c d : Char) (ts : Str) (hc : c ≠ '%') (hu : c ≠ '_') :
    likeMatch (c :: ps) (d :: ts) = (decide (lowAscii c = lowAscii d) && likeMatch ps ts) := by
  rw [likeMatch, likeMatch, likeMatchF_lit_cons _ c ps d ts hc hu]
  have h1 : likeMatchF ((c :: ps).length + (d :: ts).length) ps ts
      = likeMatchF (ps.length + ts.length + 1) ps ts :=
    likeMatchF_irrel _ _ ps ts (by simp only [List.length_cons]; omega) (by omega)
  rw [h1]

lemma likeMatch_pct_all : ∀ t, likeMatch ['%'] t = true := by
  intro t
  induction t with
  | nil => decide
  | cons d ts ih => rw [likeMatch_pct_cons, ih]; simp

lemma likeMatch_lit_pct (s : Str) (hs : noWild s) :
    ∀ t, likeMatch (s ++ ['%']) t = startsCI s t := by
  induction s with
  | nil => intro t; simpa [startsCI] using likeMatch_pct_all t
  | cons c cs ih =>
      have hc := hs c (List.mem_cons_self _ _)
      have hrest : noWild cs := fun a ha => hs a (List.mem_cons_of_mem _ ha)
      intro t
      match t with
      | [] =>
          rw [List.cons_append, likeMatch_lit_nil _ c hc.1]
          rfl
      | d :: ts =>
          rw [List.cons_append, likeMatch_lit_cons _ c d ts hc.1 hc.2, ih hrest ts]
          rfl

lemma likeMatch_contains (s : Str) (hs : noWild s) :
    ∀ t, likeMatch ('%' :: (s ++ ['%'])) t = containsCI s t := by
  intro t
  induction t with
  | nil =>
      rw [likeMatch_pct_nil, likeMatch_lit_pct s hs []]
      rfl
  | cons d ts ih =>
      rw [likeMatch_pct_cons, likeMatch_lit_pct s hs (d :: ts), ih]
      rfl

/-! ## The history catalog (SQLite table `screenshots`)

One row per saved screenshot; `id` is the integer primary key, `filepath`
carries a UNIQUE constraint, `timestamp` is catalog-assigned (modelled as
seconds). -/

structure ScreenshotRec where
  id : Nat
  filename : Str
  filepath : Str
  window_name : Option Str
  capture_mode : Str
  timestamp : Int
  width : Nat
  height : Nat
  file_size : Nat
  tags : Option Str
  notes : Option Str
  deriving DecidableEq

/-- `ORDER BY timestamp DESC`: `a` comes no later than `b` in the output
when `b.timestamp ≤ a.timestamp`. -/
def tsGE (a b : ScreenshotRec) : Prop := b.timestamp ≤ a.timestamp

instance : DecidableRel tsGE := fun a b => inferInstanceAs (Decidable (b.timestamp ≤ a.timestamp))

instance : IsTotal ScreenshotRec tsGE := ⟨fun a b => le_total b.timestamp a.timestamp⟩

instance : IsTrans ScreenshotRec tsGE := ⟨fun _ _ _ hab hbc => le_trans hbc hab⟩

/-- The SQL pattern `'%' || term || '%'`. -/
def likePat (s : Str) : Str := '%' :: (s ++ ['%'])

/-- A nullable column against `LIKE`: SQL `NULL LIKE p` is not true. -/
def optLike (pat : Str) : Option Str → Bool
  | none => false
  | some t => likeMatch pat t

/-- The `WHERE` clause of `get_history`'s search query:
`filename LIKE ? OR window_name LIKE ? OR tags LIKE ? OR notes LIKE ?`. -/
def matchesTerm (s : Str) (r : ScreenshotRec) : Bool :=
  likeMatch (likePat s) r.filename || optLike (likePat s) r.window_name ||
    optLike (likePat s) r.tags || optLike (likePat s) r.notes

/-- Spec reading of the search filter on a nullable column. -/
def optContainsCI (s : Str) : Option Str → Bool
  | none => false
  | some t => containsCI s t

/-- Modelled from the spec's words, for comparison with the code in C5:
the term occurs case-insensitively in filename, window_name, tags or
notes. -/
def recContainsCI (s : Str) (r : ScreenshotRec) : Bool :=
  containsCI s r.filename || optContainsCI s r.window_name ||
    optContainsCI s r.tags || optContainsCI s r.notes

lemma matchesTerm_eq_contains (s : Str) (hs : noWild s) (r : ScreenshotRec) :
    matchesTerm s r = recContainsCI s r := by
  have hb : ∀ o : Option Str, optLike ('%' :: (s ++ ['%'])) o = optContainsCI s o := by
    intro o
    cases o with
    | none => rfl
    | some t =>
        show likeMatch ('%' :: (s ++ ['%'])) t = containsCI s t
        exact likeMatch_contains s hs t
  rw [matchesTerm, recContainsCI]
  simp only [likePat]
  rw [likeMatch_contains s hs, hb, hb, hb]

/-- `get_history` (storage.py lines 235-281): optional `LIKE` filter on a
non-empty search term (an empty term is falsy in Python, like `None`),
`ORDER BY timestamp DESC`, then `LIMIT ? OFFSET ?`. -/
def get_history (cat : List ScreenshotRec) (limit offset : Nat)
    (search_term : Option Str) : List ScreenshotRec :=
  let filtered :=
    match search_term with
    | some s => if s.isEmpty then cat else cat.filter (fun r => matchesTerm s r)
    | none => cat
  ((List.insertionSort tsGE filtered).drop offset).take limit

/-! ## Catalog insert (`_add_to_history`, storage.py lines 211-233) -/

/-- The SQL `INSERT`: the UNIQUE constraint on `filepath` raises
`IntegrityError` when the path is already catalogued, else the new row is
appended. -/
def insertRow (cat : List ScreenshotRec) (row : ScreenshotRec) :
    Except Unit (List ScreenshotRec) :=
  if cat.any (fun r => decide (r.filepath = row.filepath)) then Except.error ()
  else Except.ok (cat ++ [row])

/-- `_add_to_history`: the `except sqlite3.IntegrityError` arm swallows the
duplicate-path error, leaving the catalog as it was. -/
def add_to_history (cat : List ScreenshotRec) (nextId : Nat) (now : Int)
    (filename filepath : Str) (window_name : Option Str) (capture_mode : Str)
    (width height file_size : Nat) : List ScreenshotRec :=
  match insertRow cat ⟨nextId, filename, filepath, window_name, capture_mode, now,
      width, height, file_size, none, none⟩ with
  | Except.ok cat' => cat'
  | Except.error _ => cat

/-! ## Catalog plus backing files (for delete and the retention sweep) -/

/-- The catalog rows together with the set of paths that exist on disk. -/
structure FsState where
  catalog : List ScreenshotRec
  files : List Str
  deriving DecidableEq

/-- `delete_screenshot` (storage.py lines 283-323): look the row up by id
(`fetchone`), return `False` when absent; else unlink the file when it
exists and delete the row, returning `True`. -/
def delete_screenshot (st : FsState) (sid : Nat) : FsState × Bool :=
  match st.catalog.find? (fun r => decide (r.id = sid)) with
  | none => (st, false)
  | some r =>
      (⟨st.catalog.filter (fun q => decide (q.id ≠ sid)),
        st.files.filter (fun q => decide (q ≠ r.filepath))⟩, true)

def secondsPerDay : Int := 86400

/-- One iteration of the cleanup loop over an old row: unlink the file if
it exists (counting only rows whose file was present), then delete the row
by id. -/
def sweepStep (acc : FsState × Nat) (r : ScreenshotRec) : FsState × Nat :=
  (⟨acc.1.catalog.filter (fun q => decide (q.id ≠ r.id)),
    if r.filepath ∈ acc.1.files then acc.1.files.filter (fun q => decide (q ≠ r.filepath))
    else acc.1.files⟩,
   if r.filepath ∈ acc.1.files then acc.2 + 1 else acc.2)

/-- `cleanup_old_screenshots` (storage.py lines 325-367): when auto-delete
is enabled, select the rows with `timestamp < now - days_to_keep` days and
run the deletion loop; the returned number is the `deleted_count` the
function reports.  When disabled, nothing happens. -/
def cleanup_old_screenshots (enabled : Bool) (days_to_keep : Int) (now : Int)
    (st : FsState) : FsState × Nat :=
  if enabled then
    (st.catalog.filter
      (fun r => decide (r.timestamp < now - days_to_keep * secondsPerDay))).foldl
      sweepStep (st, 0)
  else (st, 0)

/-- A catalog-access failure (e.g. `sqlite3.connect` raising). -/
structure DbFailure where
  msg : Str

/-- `get_history` including its `try/except` wrapper: any failure while
accessing the catalog yields `[]` instead of propagating. -/
def get_history_result (db : Except DbFailure (List ScreenshotRec)) (limit offset : Nat)
    (search_term : Option Str) : List ScreenshotRec :=
  match db with
  | Except.error _ => []
  | Except.ok cat => get_history cat limit offset search_term

/-! ## Region selector (`gui/region_selector.py`)

Qt 6 integer-rectangle semantics: a `QRect` stores left/top/right/bottom;
`QRect(topLeft, bottomRight)` takes the two points verbatim;
`width = right - left + 1`; `normalized()` keeps the absolute size (Qt 6
behaviour), mapping an x-extent `[x1, x2]` with `x2 < x1` to
`[x2 + 1, x1 - 1]`, and similarly for y. -/

structure Pt where
  x : Int
  y : Int
  deriving DecidableEq

structure QRect where
  x1 : Int
  y1 : Int
  x2 : Int
  y2 : Int
  deriving DecidableEq

/-- `QRect(topLeft, bottomRight)`. -/
def mkQRect (tl br : Pt) : QRect := ⟨tl.x, tl.y, br.x, br.y⟩

/-- Qt 6 `QRect::normalized()`. -/
def QRect.normalized (r : QRect) : QRect :=
  ⟨if r.x2 < r.x1 then r.x2 + 1 else r.x1,
   if r.y2 < r.y1 then r.y2 + 1 else r.y1,
   if r.x2 < r.x1 then r.x1 - 1 else r.x2,
   if r.y2 < r.y1 then r.y1 - 1 else r.y2⟩

/-- `QRect::x()`. -/
def QRect.qx (r : QRect) : Int := r.x1

/-- `QRect::y()`. -/
def QRect.qy (r : QRect) : Int := r.y1

/-- `QRect::width()`. -/
def QRect.width (r : QRect) : Int := r.x2 - r.x1 + 1

/-- `QRect::height()`. -/
def QRect.height (r : QRect) : Int := r.y2 - r.y1 + 1

/-- The payload of the `region_selected` signal: x, y, width, height. -/
structure Rect4 where
  left : Int
  top : Int
  width : Int
  height : Int
  deriving DecidableEq

/-- What `mouseReleaseEvent` would emit for anchor `a` and release point
`p`: the components of `QRect(a, p).normalized()`. -/
def emitOf (a p : Pt) : Rect4 :=
  ⟨((mkQRect a p).normalized).qx, ((mkQRect a p).normalized).qy,
   ((mkQRect a p).normalized).width, ((mkQRect a p).normalized).height⟩

/-- The emission guard `width > 5 and height > 5`. -/
def bigEnough (a p : Pt) : Prop :=
  5 < ((mkQRect a p).normalized).width ∧ 5 < ((mkQRect a p).normalized).height

instance (a p : Pt) : Decidable (bigEnough a p) :=
  inferInstanceAs (Decidable (_ ∧ _))

/-- The observable widget state: the two optional points, whether the
overlay has been closed, and the log of `region_selected` emissions. -/
structure SelState where
  start_point : Option Pt
  end_point : Option Pt
  closed : Bool
  emitted : List Rect4
  deriving DecidableEq

def initSel : SelState := ⟨none, none, false, []⟩

/-- One input event: a mouse press/release (`lb = true` for the left
button), a mouse move, or a key press (`escape = true` for Escape). -/
inductive SelEvent where
  | press (lb : Bool) (p : Pt)
  | move (p : Pt)
  | release (lb : Bool) (p : Pt)
  | key (escape : Bool)
  deriving DecidableEq

/-- The event handlers of `RegionSelector` (lines 125-169): a closed
widget receives no further events, so every event fixes a closed state. -/
def stepSel (s : SelState) (e : SelEvent) : SelState :=
  if s.closed then s else
  match e with
  | SelEvent.press lb p =>
      if lb then { s with start_point := some p, end_point := some p } else s
  | SelEvent.move p =>
      match s.start_point with
      | some _ => { s with end_point := some p }
      | none => s
  | SelEvent.release lb p =>
      match lb, s.start_point with
      | true, some a =>
          let withEnd := { s with end_point := some p }
          let afterEmit :=
            if bigEnough a p then
              { withEnd with emitted := withEnd.emitted ++ [emitOf a p] }
            else withEnd
          { afterEmit with closed := true }
      | _, _ => s
  | SelEvent.key esc => if esc then { s with closed := true } else s

/-- A whole interaction, starting from the freshly shown overlay. -/
def runSel (evs : List SelEvent) : SelState := evs.foldl stepSel initSel

lemma stepSel_closed (s : SelState) (e : SelEvent) (h : s.closed = true) : stepSel s e = s := by
  rw [stepSel.eq_def, if_pos h]

lemma stepSel_emit_mono (s : SelState) (e : SelEvent) :
    ∃ tl, (stepSel s e).emitted = s.emitted ++ tl := by
  by_cases hc : s.closed = true
  · exact ⟨[], by rw [stepSel_closed s e hc, List.append_nil]⟩
  · rw [stepSel.eq_def, if_neg hc]
    cases e with
    | press lb p => cases lb <;> exact ⟨[], by simp⟩
    | move p => cases hsp : s.start_point <;> exact ⟨[], by simp⟩
    | release lb p =>
        cases lb with
        | false => cases hsp : s.start_point <;> exact ⟨[], by simp⟩
        | true =>
            cases hsp : s.start_point with
            | none => exact ⟨[], by simp⟩
            | some a =>
                by_cases hbig : bigEnough a p
                · exact ⟨[emitOf a p], by simp [hbig]⟩
                · exact ⟨[], by simp [hbig]⟩
    | key esc => cases esc <;> exact ⟨[], by simp⟩

lemma stepSel_inv (s : SelState) (e : SelEvent) (h : s.closed = false → s.emitted = []) :
    (stepSel s e).closed = false → (stepSel s e).emitted = [] := by
  by_cases hc : s.closed = true
  · rw [stepSel_closed s e hc]; exact h
  · have hcf : s.closed = false := by revert hc; cases s.closed <;> simp
    have hemp := h hcf
    rw [stepSel.eq_def, if_neg hc]
    cases e with
    | press lb p => cases lb <;> intro _ <;> simpa using hemp
    | move p => cases hsp : s.start_point <;> intro _ <;> simpa using hemp
    | release lb p =>
        cases lb with
        | false => cases hsp : s.start_point <;> intro _ <;> simpa using hemp
        | true =>
            cases hsp : s.start_point with
            | none => intro _; simpa using hemp
            | some a =>
                intro habs
                by_cases hbig : bigEnough a p
                · simp [hbig] at habs
                · simp [hbig] at habs
    | key esc =>
        cases esc with
        | false => intro _; simpa using hemp
        | true => intro habs; simp at habs

lemma foldl_inv (evs : List SelEvent) :
    ∀ s : SelState, (s.closed = false → s.emitted = []) →
      ((evs.foldl stepSel s).closed = false → (evs.foldl stepSel s).emitted = []) := by
  induction evs with
  | nil => intro s h; exact h
  | cons e rest ih => intro s h; exact ih (stepSel s e) (stepSel_inv s e h)

lemma runSel_inv (evs : List SelEvent) :
    (runSel evs).closed = false → (runSel evs).emitted = [] :=
  foldl_inv evs initSel (fun _ => rfl)

lemma foldl_emit_mono (evs : List SelEvent) :
    ∀ s : SelState, ∃ tl, (evs.foldl stepSel s).emitted = s.emitted ++ tl := by
  induction evs with
  | nil => intro s; exact ⟨[], by simp⟩
  | cons e rest ih =>
      intro s
      obtain ⟨tl1, h1⟩ := stepSel_emit_mono s e
      obtain ⟨tl2, h2⟩ := ih (stepSel s e)
      exact ⟨tl1 ++ tl2, by rw [List.foldl_cons, h2, h1, List.append_assoc]⟩

lemma run_moves (a : Pt) (ms : List Pt) :
    ∀ s : SelState, s.closed = false → s.start_point = some a →
      (List.foldl stepSel s (ms.map SelEvent.move)).closed = false
      ∧ (List.foldl stepSel s (ms.map SelEvent.move)).start_point = some a
      ∧ (List.foldl stepSel s (ms.map SelEvent.move)).emitted = s.emitted := by
  induction ms with
  | nil => intro s h1 h2; exact ⟨h1, h2, rfl⟩
  | cons m rest ih =>
      intro s h1 h2
      have hstep : stepSel s (SelEvent.move m) = { s with end_point := some m } := by
        rw [stepSel.eq_def, if_neg (by rw [h1]; simp)]
        rw [h2]
      have := ih (stepSel s (SelEvent.move m)) (by rw [hstep]; exact h1) (by rw [hstep]; exact h2)
      simpa [hstep] using this

/-! ## Helper lemmas for the naming engine -/

lemma mem_of_mem_dropWhile {p : Char → Bool} : ∀ {s : Str} {c : Char},
    c ∈ s.dropWhile p → c ∈ s := by
  intro s
  induction s with
  | nil => intro c h; exact absurd h (List.not_mem_nil _)
  | cons d ds ih =>
      intro c h
      rw [List.dropWhile_cons] at h
      by_cases hp : p d = true
      · rw [if_pos hp] at h
        exact List.mem_cons_of_mem _ (ih h)
      · rw [if_neg hp] at h
        exact h

lemma mem_of_mem_pyStrip {s : Str} {c : Char} (h : c ∈ pyStrip s) : c ∈ s := by
  rw [pyStrip] at h
  have h1 := List.mem_reverse.mp h
  have h2 := mem_of_mem_dropWhile h1
  have h3 := List.mem_reverse.mp h2
  exact mem_of_mem_dropWhile h3

lemma sanitize_window_allowed (w : Str) : ∀ c ∈ sanitize_window w, allowedChar c = true := by
  intro c hc
  rw [sanitize_window] at hc
  have h1 := mem_of_mem_pyStrip (List.take_subset _ _ hc)
  exact (List.mem_filter.mp h1).2

lemma sanitize_window_short (w : Str) : (sanitize_window w).length ≤ 50 := by
  rw [sanitize_window]
  exact List.length_take_le _ _

lemma allowedChar_not_sep {c : Char} (h : allowedChar c = true) : ¬ isSep c := by
  intro hsep
  rcases hsep with h1 | h1 <;> subst h1 <;> exact absurd h (by decide)

/-- The token substituted for `{window}`. -/
def tokenOf (w : Option Str) : Str :=
  match w with
  | some s => if s.isEmpty then windowToken else sanitize_window s
  | none => windowToken

lemma tokenOf_not_sep (w : Option Str) : ∀ c ∈ tokenOf w, ¬ isSep c := by
  intro c hc
  cases w with
  | none => intro hsep; rcases hsep with h1 | h1 <;> subst h1 <;> simp [tokenOf, windowToken] at hc
  | some s =>
      rw [tokenOf] at hc
      by_cases hse : s.isEmpty
      · rw [if_pos hse] at hc
        intro hsep
        rcases hsep with h1 | h1 <;> subst h1 <;> simp [windowToken] at hc
      · rw [if_neg hse] at hc
        exact allowedChar_not_sep (sanitize_window_allowed s c hc)

lemma generate_filename_eq (p : Str) (w : Option Str) (fext : Str) :
    generate_filename p w fext = replaceAll p "{window}".data (tokenOf w) ++ '.' :: fext := by
  cases w with
  | none => rfl
  | some s => rfl

/-- C7: for every valid naming pattern (the strftime-formatted text is
free of path separators) and every output format extension,
`generate_filename` appends `'.' ++ extension`, substitutes `{window}` by
the sanitized window name — only alphanumeric, space, hyphen, underscore;
trimmed; truncated to 50 characters — or by the literal token `screen`
when no window name is supplied, and the result contains no path-separator
character. -/
theorem generate_filename_spec (p fext : Str) (w : Option Str)
    (hp : ∀ c ∈ p, ¬ isSep c) (hext : ∀ c ∈ fext, ¬ isSep c) :
    generate_filename p w fext = replaceAll p "{window}".data (tokenOf w) ++ '.' :: fext
    ∧ (∃ pre, generate_filename p w fext = pre ++ '.' :: fext)
    ∧ (∀ c ∈ generate_filename p w fext, ¬ isSep c)
    ∧ (∀ s, (∀ c ∈ sanitize_window s, allowedChar c = true)
        ∧ (sanitize_window s).length ≤ 50) := by
  refine ⟨generate_filename_eq p w fext, ⟨_, generate_filename_eq p w fext⟩, ?_,
    fun s => ⟨sanitize_window_allowed s, sanitize_window_short s⟩⟩
  intro c hc
  rw [generate_filename_eq p w fext] at hc
  rcases List.mem_append.mp hc with hbody | hdot
  · rcases replaceAll_mem _ _ _ _ hbody with hinp | hintok
    · exact hp c hinp
    · exact tokenOf_not_sep w c hintok
  · rcases List.mem_cons.mp hdot with h1 | h1
    · subst h1; intro hsep; rcases hsep with h2 | h2 <;> cases h2
    · exact hext c h1

/-- Witness for C7 at a concrete pattern, window name and format. -/
theorem generate_filename_spec_witness :
    generate_filename "a_{window}".data (some "B/c".data) "png".data
        = replaceAll "a_{window}".data "{window}".data (tokenOf (some "B/c".data))
          ++ '.' :: "png".data
    ∧ (∃ pre, generate_filename "a_{window}".data (some "B/c".data) "png".data
        = pre ++ '.' :: "png".data)
    ∧ (∀ c ∈ generate_filename "a_{window}".data (some "B/c".data) "png".data, ¬ isSep c)
    ∧ (∀ s, (∀ c ∈ sanitize_window s, allowedChar c = true)
        ∧ (sanitize_window s).length ≤ 50) :=
  generate_filename_spec "a_{window}".data "png".data (some "B/c".data)
    (by decide) (by decide)

/-- C1: the collision resolver of `save_screenshot` — the resolved path
does not exist at call time; it is the first free candidate in the probe
order `stem.ext`, `stem_1.ext`, `stem_2.ext`, ...; and every sequence of
`n` successive saves into the same organizational bucket returns pairwise
distinct paths. -/
theorem save_screenshot_collision_spec (fs : List Str) (stem fext : Str) :
    resolvePath fs stem fext ∉ fs
    ∧ (∃ k, resolvePath fs stem fext = candidate stem fext k
        ∧ ∀ i < k, candidate stem fext i ∈ fs)
    ∧ ∀ n, (saveList fs stem fext n).Nodup :=
  ⟨(resolvePath_spec fs stem fext).1, (resolvePath_spec fs stem fext).2,
    fun n => (saveList_fresh stem fext n fs).2⟩

/-- A concrete catalogued record, shared by several witnesses. -/
def recA : ScreenshotRec :=
  ⟨1, "a.png".data, "pics/a.png".data, none, "fullscreen".data, 0, 1, 1, 1, none, none⟩

/-- C4: inserting a record whose `filepath` is already catalogued trips
the UNIQUE constraint (`insertRow` errors), `_add_to_history` swallows the
error, and the catalog is unchanged: the prior row keeps all its field
values and no new row is added. -/
theorem add_to_history_duplicate_spec (cat : List ScreenshotRec) (nextId : Nat) (now : Int)
    (filename filepath : Str) (window_name : Option Str) (capture_mode : Str)
    (width height file_size : Nat)
    (hdup : ∃ r ∈ cat, r.filepath = filepath) :
    insertRow cat ⟨nextId, filename, filepath, window_name, capture_mode, now,
        width, height, file_size, none, none⟩ = Except.error ()
    ∧ add_to_history cat nextId now filename filepath window_name capture_mode
        width height file_size = cat := by
  have hany : cat.any (fun r => decide (r.filepath = filepath)) = true := by
    obtain ⟨r, hr, he⟩ := hdup
    exact List.any_eq_true.mpr ⟨r, hr, by simp [he]⟩
  have herr : insertRow cat ⟨nextId, filename, filepath, window_name, capture_mode, now,
      width, height, file_size, none, none⟩ = Except.error () := by
    rw [insertRow, if_pos hany]
  refine ⟨herr, ?_⟩
  rw [add_to_history, herr]

/-- Witness for C4: a duplicate insert against a one-row catalog. -/
theorem add_to_history_duplicate_spec_witness :
    insertRow [recA] ⟨2, "b.png".data, "pics/a.png".data, none, "window".data, 5,
        2, 2, 2, none, none⟩ = Except.error ()
    ∧ add_to_history [recA] 2 5 "b.png".data "pics/a.png".data none "window".data
        2 2 2 = [recA] :=
  add_to_history_duplicate_spec [recA] 2 5 "b.png".data "pics/a.png".data none
    "window".data 2 2 2 ⟨recA, by simp, rfl⟩

/-- C10: `get_history` never propagates a catalog-access failure; it
returns `[]`, which is exactly what it returns on an empty catalog, so the
caller cannot tell an empty history from a failure. -/
theorem get_history_failure_spec (e : DbFailure) (limit offset : Nat) (t : Option Str) :
    get_history_result (Except.error e) limit offset t = []
    ∧ get_history_result (Except.error e) limit offset t
        = get_history_result (Except.ok []) limit offset t := by
  have hempty : get_history [] limit offset t = [] := by
    cases t with
    | none => simp [get_history]
    | some s =>
        by_cases hse : s.isEmpty <;> simp [get_history, hse]
  exact ⟨rfl, by rw [show get_history_result (Except.ok []) limit offset t
    = get_history [] limit offset t from rfl, hempty]; rfl⟩

/-! ## C9: the `application` organization mode -/

lemma replaceAll_no_dot (p rep s : Str) (hd : '.' ∉ s) : replaceAll s ('.' :: p) rep = s := by
  have h := replaceAll_passthrough p rep [] s hd
  rw [List.append_nil] at h
  rw [h]
  show s ++ ([] : Str) = s
  exact List.append_nil s

lemma double_replace_png (s : Str) (hd : '.' ∉ s) :
    replaceAll (replaceAll (s ++ pngExt) pngExt []) jpgExt [] = s := by
  have hpng : pngExt = '.' :: "png".data := rfl
  have hjpg : jpgExt = '.' :: "jpg".data := rfl
  have h1 : replaceAll (s ++ pngExt) pngExt [] = s := by
    rw [hpng, replaceAll_passthrough _ _ _ s hd]
    have h2 : replaceAll ('.' :: "png".data) ('.' :: "png".data) [] = [] := by decide
    rw [h2]
    exact List.append_nil s
  rw [h1, hjpg, replaceAll_no_dot _ _ s hd]

lemma double_replace_jpg (s : Str) (hd : '.' ∉ s) :
    replaceAll (replaceAll (s ++ jpgExt) pngExt []) jpgExt [] = s := by
  have hpng : pngExt = '.' :: "png".data := rfl
  have hjpg : jpgExt = '.' :: "jpg".data := rfl
  have h1 : replaceAll (s ++ jpgExt) pngExt [] = s ++ jpgExt := by
    rw [hpng, replaceAll_passthrough _ _ _ s hd]
    have h2 : replaceAll jpgExt ('.' :: "png".data) [] = jpgExt := by decide
    rw [h2]
  rw [h1, hjpg, replaceAll_passthrough _ _ _ s hd]
  have h3 : replaceAll ('.' :: "jpg".data) ('.' :: "jpg".data) [] = [] := by decide
  rw [h3]
  exact List.append_nil s

/-- C9 (amended): in `application` mode the target directory under the
base root is `parts[-1].replace('.png', '').replace('.jpg', '')` — the
trailing underscore-separated segment with every occurrence of `.png` and
then `.jpg` removed — falling back to `unknown` exactly when the filename
contains no underscore; when the trailing segment is `s ++ ".png"` or
`s ++ ".jpg"` with no dot inside `s`, this coincides with the spec's
"extension removed" reading and the directory is named `s`. -/
theorem get_save_path_application_spec (fn : Str) (dp base : List Str) :
    get_save_path "application".data dp base fn = (base ++ [app_name_of fn], fn)
    ∧ ('_' ∉ fn → app_name_of fn = "unknown".data)
    ∧ ('_' ∈ fn → app_name_of fn
        = replaceAll (replaceAll ((splitU fn).getLastD []) pngExt []) jpgExt [])
    ∧ (∀ s, '_' ∈ fn → '.' ∉ s →
        ((splitU fn).getLastD [] = s ++ pngExt ∨ (splitU fn).getLastD [] = s ++ jpgExt) →
        app_name_of fn = s) := by
  have happ : app_name_of fn
      = if (splitU fn).length > 1
        then replaceAll (replaceAll ((splitU fn).getLastD []) pngExt []) jpgExt []
        else "unknown".data := rfl
  have hlen : '_' ∈ fn ↔ (splitU fn).length > 1 := by
    rw [splitU_length]
    constructor
    · intro h
      have := List.count_pos_iff.mpr h
      omega
    · intro h
      exact List.count_pos_iff.mp (by omega)
  refine ⟨?_, ?_, ?_, ?_⟩
  · rw [get_save_path, if_neg (by decide), if_pos rfl]
  · intro h
    rw [happ, if_neg (fun hgt => h (hlen.mpr hgt))]
  · intro h
    rw [happ, if_pos (hlen.mp h)]
  · intro s h hd hcase
    rw [happ, if_pos (hlen.mp h)]
    rcases hcase with hc | hc
    · rw [hc]; exact double_replace_png s hd
    · rw [hc]; exact double_replace_jpg s hd

/-- Counterexample for C9 as stated: for `shot_a.png.png` the code removes
every occurrence of `.png`, naming the directory `a`, while the spec's
"trailing segment with its image extension removed" names `a.png`. -/
theorem get_save_path_application_cex :
    (get_save_path "application".data [] [] "shot_a.png.png".data).1 = ["a".data]
    ∧ specAppToken "shot_a.png.png".data = "a.png".data
    ∧ app_name_of "shot_a.png.png".data ≠ specAppToken "shot_a.png.png".data := by decide

/-! ## C6: delete_screenshot -/

lemma delete_not_found (st : FsState) (sid : Nat)
    (h : st.catalog.find? (fun q => decide (q.id = sid)) = none) :
    delete_screenshot st sid = (st, false) := by
  rw [delete_screenshot.eq_def, h]

/-- C6: when a record with the given id is catalogued, `delete_screenshot`
removes it, unlinks its backing file (which is then absent), and returns
`True`; a second call with the same id — and any call with an unknown
id — leaves the state unchanged and returns `False`. -/
theorem delete_screenshot_spec (st : FsState) (sid : Nat) :
    (∀ r, st.catalog.find? (fun q => decide (q.id = sid)) = some r →
      delete_screenshot st sid
          = (⟨st.catalog.filter (fun q => decide (q.id ≠ sid)),
              st.files.filter (fun q => decide (q ≠ r.filepath))⟩, true)
        ∧ r.filepath ∉ (delete_screenshot st sid).1.files
        ∧ (delete_screenshot (delete_screenshot st sid).1 sid).2 = false)
    ∧ (st.catalog.find? (fun q => decide (q.id = sid)) = none ↔ ∀ r ∈ st.catalog, r.id ≠ sid)
    ∧ (st.catalog.find? (fun q => decide (q.id = sid)) = none →
        delete_screenshot st sid = (st, false)) := by
  refine ⟨?_, ?_, delete_not_found st sid⟩
  · intro r hr
    have heq : delete_screenshot st sid
        = (⟨st.catalog.filter (fun q => decide (q.id ≠ sid)),
            st.files.filter (fun q => decide (q ≠ r.filepath))⟩, true) := by
      rw [delete_screenshot.eq_def, hr]
    have hfind : (st.catalog.filter (fun q => decide (q.id ≠ sid))).find?
        (fun q => decide (q.id = sid)) = none := by
      rw [List.find?_eq_none]
      intro x hx
      have hx2 := (List.mem_filter.mp hx).2
      simp only [decide_eq_true_eq] at hx2 ⊢
      exact hx2
    refine ⟨heq, ?_, ?_⟩
    · rw [heq]
      intro hmem
      have := (List.mem_filter.mp hmem).2
      simp at this
    · have h12 : (delete_screenshot st sid).1
          = ⟨st.catalog.filter (fun q => decide (q.id ≠ sid)),
             st.files.filter (fun q => decide (q ≠ r.filepath))⟩ := by rw [heq]
      rw [h12, delete_not_found _ sid hfind]
  · rw [List.find?_eq_none]
    constructor
    · intro h r hr heq2
      exact h r hr (decide_eq_true heq2)
    · intro h r hr hdec
      exact h r hr (of_decide_eq_true hdec)

/-! ## C3 / C8: the region-selection gesture -/

lemma stepSel_release (s : SelState) (a p : Pt) (hcl : s.closed = false)
    (hsp : s.start_point = some a) :
    stepSel s (SelEvent.release true p)
      = ⟨some a, some p, true,
         s.emitted ++ (if bigEnough a p then [emitOf a p] else [])⟩ := by
  obtain ⟨sp, ep, cl, em⟩ := s
  have hcl' : cl = false := hcl
  have hsp' : sp = some a := hsp
  subst hcl'
  subst hsp'
  by_cases hbig : bigEnough a p <;> simp [stepSel, hbig]

/-- C3 (amended): a drag gesture `press a`, any moves, `release p` always
closes the overlay; it emits exactly the rectangle
`QRect(a, p).normalized()` — under Qt 6 integer semantics: for
`p.x ≥ a.x` the x-extent is `[a.x, p.x]` (width `p.x - a.x + 1`), for
`p.x < a.x` it is `[p.x + 1, a.x - 1]` (width `a.x - p.x - 1`), and
likewise for y — when that rectangle's width and height both exceed 5, and
emits nothing otherwise; in particular dragging from (50,50) to (10,10)
emits `{left 11, top 11, width 39, height 39}`.  At most one rectangle is
ever emitted. -/
theorem region_drag_release_spec (a p : Pt) (ms : List Pt) :
    (runSel (SelEvent.press true a :: (ms.map SelEvent.move ++ [SelEvent.release true p]))).closed
        = true
    ∧ (runSel (SelEvent.press true a :: (ms.map SelEvent.move ++ [SelEvent.release true p]))).emitted
        = (if bigEnough a p then [emitOf a p] else [])
    ∧ (runSel (SelEvent.press true a
        :: (ms.map SelEvent.move ++ [SelEvent.release true p]))).emitted.length ≤ 1
    ∧ (runSel [SelEvent.press true ⟨50, 50⟩, SelEvent.release true ⟨10, 10⟩]).emitted
        = [⟨11, 11, 39, 39⟩] := by
  have hpress : stepSel initSel (SelEvent.press true a) = ⟨some a, some a, false, []⟩ := rfl
  have hrun : runSel (SelEvent.press true a :: (ms.map SelEvent.move ++ [SelEvent.release true p]))
      = stepSel (List.foldl stepSel (⟨some a, some a, false, []⟩ : SelState)
          (ms.map SelEvent.move)) (SelEvent.release true p) := by
    rw [runSel, List.foldl_cons, hpress, List.foldl_append, List.foldl_cons, List.foldl_nil]
  obtain ⟨hmc, hms, hme⟩ :=
    run_moves a ms (⟨some a, some a, false, []⟩ : SelState) rfl rfl
  have hrel := stepSel_release _ a p hmc hms
  rw [hme] at hrel
  rw [hrun, hrel]
  refine ⟨rfl, rfl, ?_, by decide⟩
  by_cases hbig : bigEnough a p
  · rw [if_pos hbig]; simp
  · rw [if_neg hbig]; simp

/-- Counterexample for C3 as stated: releasing at (10,10) after pressing at
(50,50) emits the single rectangle (11, 11, 39, 39) — not the claimed
`{left 10, top 10, width 40, height 40}` (the normalized integer `QRect`
of the two corner points is not their exact geometric bounding box). -/
theorem region_drag_release_cex :
    (runSel [SelEvent.press true ⟨50, 50⟩, SelEvent.release true ⟨10, 10⟩]).emitted
        = [⟨11, 11, 39, 39⟩]
    ∧ (⟨11, 11, 39, 39⟩ : Rect4) ≠ ⟨10, 10, 40, 40⟩ := by decide

/-- C8: from every reachable non-terminal (not yet closed) state, the
Escape key closes the overlay with the emission log still empty — the
machine lands in `Cancelled` —, the emission log only ever grows along a
run, and a run that ends with nothing emitted (i.e. in `Cancelled`) never
emitted a rectangle at any earlier point. -/
theorem region_cancel_spec (evs : List SelEvent) :
    ((runSel evs).closed = false →
      (stepSel (runSel evs) (SelEvent.key true)).closed = true
      ∧ (stepSel (runSel evs) (SelEvent.key true)).emitted = [])
    ∧ (∀ evs2, ∃ tl, (runSel (evs ++ evs2)).emitted = (runSel evs).emitted ++ tl)
    ∧ ((runSel evs).emitted = [] →
        ∀ e1 e2, evs = e1 ++ e2 → (runSel e1).emitted = []) := by
  have hmono : ∀ e1 e2 : List SelEvent,
      ∃ tl, (runSel (e1 ++ e2)).emitted = (runSel e1).emitted ++ tl := by
    intro e1 e2
    rw [runSel, List.foldl_append]
    exact foldl_emit_mono e2 (runSel e1)
  refine ⟨?_, fun e2 => hmono evs e2, ?_⟩
  · intro h
    have hemp := runSel_inv evs h
    have hstep : stepSel (runSel evs) (SelEvent.key true)
        = { runSel evs with closed := true } := by
      rw [stepSel.eq_def, if_neg (by rw [h]; simp)]
      rfl
    rw [hstep]
    exact ⟨rfl, hemp⟩
  · intro hnil e1 e2 heq
    obtain ⟨tl, htl⟩ := hmono e1 e2
    rw [← heq, hnil] at htl
    exact (List.append_eq_nil.mp htl.symm).1

/-! ## C2: the retention sweep -/

lemma sweepStep_eq (acc : FsState × Nat) (r : ScreenshotRec) :
    sweepStep acc r
      = (⟨acc.1.catalog.filter (fun q => decide (q.id ≠ r.id)),
          acc.1.files.filter (fun q => decide (q ≠ r.filepath))⟩,
         if r.filepath ∈ acc.1.files then acc.2 + 1 else acc.2) := by
  rw [sweepStep]
  by_cases hm : r.filepath ∈ acc.1.files
  · simp only [if_pos hm]
  · simp only [if_neg hm]
    have hself : acc.1.files.filter (fun q => decide (q ≠ r.filepath)) = acc.1.files :=
      List.filter_eq_self.mpr (fun q hq => decide_eq_true (fun he => hm (he ▸ hq)))
    rw [hself]

lemma sweep_catalog (old : List ScreenshotRec) :
    ∀ (cat : List ScreenshotRec) (files : List Str) (cnt : Nat),
      (old.foldl sweepStep (⟨cat, files⟩, cnt)).1.catalog
        = cat.filter (fun q => decide (∀ x ∈ old, q.id ≠ x.id)) := by
  induction old with
  | nil =>
      intro cat files cnt
      rw [List.foldl_nil]
      symm
      apply List.filter_eq_self.mpr
      intro q _
      apply decide_eq_true
      intro x hx
      exact absurd hx (List.not_mem_nil x)
  | cons r rest ih =>
      intro cat files cnt
      rw [List.foldl_cons, sweepStep_eq, ih, List.filter_filter]
      apply List.filter_congr
      intro q _
      rw [← Bool.decide_and, decide_eq_decide]
      rw [List.forall_mem_cons]
      tauto

lemma sweep_files (old : List ScreenshotRec) :
    ∀ (cat : List ScreenshotRec) (files : List Str) (cnt : Nat),
      (old.foldl sweepStep (⟨cat, files⟩, cnt)).1.files
        = files.filter (fun q => decide (∀ x ∈ old, q ≠ x.filepath)) := by
  induction old with
  | nil =>
      intro cat files cnt
      rw [List.foldl_nil]
      symm
      apply List.filter_eq_self.mpr
      intro q _
      apply decide_eq_true
      intro x hx
      exact absurd hx (List.not_mem_nil x)
  | cons r rest ih =>
      intro cat files cnt
      rw [List.foldl_cons, sweepStep_eq, ih, List.filter_filter]
      apply List.filter_congr
      intro q _
      rw [← Bool.decide_and, decide_eq_decide]
      rw [List.forall_mem_cons]
      tauto

lemma sweep_count (old : List ScreenshotRec) :
    ∀ (cat : List ScreenshotRec) (files : List Str) (cnt : Nat),
      old.Pairwise (fun a b => a.filepath ≠ b.filepath) →
      (old.foldl sweepStep (⟨cat, files⟩, cnt)).2
        = cnt + (old.filter (fun r => decide (r.filepath ∈ files))).length := by
  induction old with
  | nil => intro cat files cnt _; rfl
  | cons r rest ih =>
      intro cat files cnt hpw
      obtain ⟨hhead, hrest⟩ := List.pairwise_cons.mp hpw
      rw [List.foldl_cons, sweepStep_eq, ih _ _ _ hrest]
      have hfeq : (rest.filter (fun x =>
            decide (x.filepath ∈ files.filter (fun q => decide (q ≠ r.filepath))))).length
          = (rest.filter (fun x => decide (x.filepath ∈ files))).length := by
        congr 1
        apply List.filter_congr
        intro x hx
        rw [decide_eq_decide]
        constructor
        · intro hm; exact (List.mem_filter.mp hm).1
        · intro hm
          exact List.mem_filter.mpr ⟨hm, decide_eq_true (Ne.symm (hhead x hx))⟩
      rw [hfeq]
      by_cases hm : r.filepath ∈ files
      · rw [if_pos hm]
        have hd : decide (r.filepath ∈ files) = true := decide_eq_true hm
        simp only [List.filter_cons, hd, if_true, List.length_cons]
        omega
      · rw [if_neg hm]
        have hd : decide (r.filepath ∈ files) = false := by simpa using hm
        simp [List.filter_cons, hd]

/-- C2 (amended): with auto-delete enabled, one sweep removes exactly the
records strictly older than `now - days_to_keep` days (ids unique, as the
primary key guarantees), deletes exactly their backing files when present
(paths unique, as the UNIQUE constraint guarantees), leaves every other
record and file untouched, and never fails on a missing file — but the
reported count is the number of backing files actually unlinked, not the
number of records removed (a removed record whose file was already gone is
not counted).  With auto-delete disabled the sweep does nothing. -/
theorem cleanup_old_screenshots_spec (days now : Int) (st : FsState)
    (hid : (st.catalog.map (fun r => r.id)).Nodup)
    (hfp : (st.catalog.map (fun r => r.filepath)).Nodup) :
    (cleanup_old_screenshots true days now st).1.catalog
        = st.catalog.filter
            (fun r => decide (¬ r.timestamp < now - days * secondsPerDay))
    ∧ (cleanup_old_screenshots true days now st).1.files
        = st.files.filter (fun q => decide (∀ r ∈ st.catalog,
            r.timestamp < now - days * secondsPerDay → q ≠ r.filepath))
    ∧ (cleanup_old_screenshots true days now st).2
        = (st.catalog.filter (fun r =>
            decide (r.timestamp < now - days * secondsPerDay)
              && decide (r.filepath ∈ st.files))).length
    ∧ cleanup_old_screenshots false days now st = (st, 0) := by
  set cutoff := now - days * secondsPerDay with hcut
  have hclean : cleanup_old_screenshots true days now st
      = (st.catalog.filter (fun r => decide (r.timestamp < cutoff))).foldl
          sweepStep (⟨st.catalog, st.files⟩, 0) := rfl
  set old := st.catalog.filter (fun r => decide (r.timestamp < cutoff)) with hold
  have hmemold : ∀ x, x ∈ old ↔ x ∈ st.catalog ∧ x.timestamp < cutoff := by
    intro x
    rw [hold, List.mem_filter, decide_eq_true_eq]
  refine ⟨?_, ?_, ?_, rfl⟩
  · rw [hclean, sweep_catalog]
    apply List.filter_congr
    intro q hq
    rw [decide_eq_decide]
    constructor
    · intro hall hts
      exact hall q ((hmemold q).mpr ⟨hq, hts⟩) rfl
    · intro hts x hx heq
      obtain ⟨hxc, hxts⟩ := (hmemold x).mp hx
      have hxq : q = x := List.inj_on_of_nodup_map hid hq hxc heq
      rw [hxq] at hts
      exact hts hxts
  · rw [hclean, sweep_files]
    apply List.filter_congr
    intro q _
    rw [decide_eq_decide]
    constructor
    · intro hall r hr hts
      exact hall r ((hmemold r).mpr ⟨hr, hts⟩)
    · intro hall x hx
      obtain ⟨hxc, hxts⟩ := (hmemold x).mp hx
      exact hall x hxc hxts
  · have hpw : old.Pairwise (fun a b => a.filepath ≠ b.filepath) := by
      have h1 : st.catalog.Pairwise (fun a b => a.filepath ≠ b.filepath) :=
        List.pairwise_map.mp hfp
      exact h1.sublist (List.filter_sublist _)
    rw [hclean, sweep_count old st.catalog st.files 0 hpw, hold, List.filter_filter]
    rw [Nat.zero_add]
    congr 1
    apply List.filter_congr
    intro q _
    rw [Bool.and_comm]

/-- A record old enough to be swept, with no backing file on disk. -/
def oldRec : ScreenshotRec :=
  ⟨1, "old.png".data, "pics/old.png".data, none, "fullscreen".data, 0, 1, 1, 1, none, none⟩

/-- Counterexample for C2 as stated: sweeping a catalog holding one
out-of-retention record whose backing file is missing removes that record
(one deleted item) yet reports a count of 0 — `deleted_count` counts only
unlinked files. -/
theorem cleanup_reported_count_cex :
    (cleanup_old_screenshots true 1 (2 * secondsPerDay) ⟨[oldRec], []⟩).1.catalog = []
    ∧ (cleanup_old_screenshots true 1 (2 * secondsPerDay) ⟨[oldRec], []⟩).2 = 0 := by
  decide

/-- Witness for C2 (amended) on a two-record catalog: one record old with
its file present, one recent. -/
theorem cleanup_old_screenshots_spec_witness :
    (cleanup_old_screenshots true 1 (2 * secondsPerDay)
        ⟨[oldRec], ["pics/old.png".data]⟩).1.catalog
      = [oldRec].filter
          (fun r => decide (¬ r.timestamp < 2 * secondsPerDay - 1 * secondsPerDay))
    ∧ (cleanup_old_screenshots true 1 (2 * secondsPerDay)
        ⟨[oldRec], ["pics/old.png".data]⟩).1.files
      = ["pics/old.png".data].filter (fun q => decide (∀ r ∈ [oldRec],
          r.timestamp < 2 * secondsPerDay - 1 * secondsPerDay → q ≠ r.filepath))
    ∧ (cleanup_old_screenshots true 1 (2 * secondsPerDay)
        ⟨[oldRec], ["pics/old.png".data]⟩).2
      = ([oldRec].filter (fun r =>
          decide (r.timestamp < 2 * secondsPerDay - 1 * secondsPerDay)
            && decide (r.filepath ∈ ["pics/old.png".data]))).length
    ∧ cleanup_old_screenshots false 1 (2 * secondsPerDay)
        ⟨[oldRec], ["pics/old.png".data]⟩ = (⟨[oldRec], ["pics/old.png".data]⟩, 0) :=
  cleanup_old_screenshots_spec 1 (2 * secondsPerDay) ⟨[oldRec], ["pics/old.png".data]⟩
    (by decide) (by decide)

/-! ## C5: get_history listing and search -/

lemma get_history_some_eq (cat : List ScreenshotRec) (s : Str) (hne : s ≠ []) :
    ∀ lim off, get_history cat lim off (some s)
      = ((List.insertionSort tsGE (cat.filter (fun r => matchesTerm s r))).drop off).take lim := by
  intro lim off
  have hse : s.isEmpty = false := by
    cases s with
    | nil => exact absurd rfl hne
    | cons a l => rfl
  show ((List.insertionSort tsGE
      (if s.isEmpty then cat else cat.filter (fun r => matchesTerm s r))).drop off).take lim = _
  rw [hse, if_neg Bool.false_ne_true]

lemma get_history_none_eq (cat : List ScreenshotRec) :
    ∀ lim off, get_history cat lim off none
      = ((List.insertionSort tsGE cat).drop off).take lim := fun _ _ => rfl

lemma sorted_drop_take (l : List ScreenshotRec) (o li : Nat)
    (h : List.Sorted tsGE l) : List.Sorted tsGE ((l.drop o).take li) :=
  List.Pairwise.sublist ((List.take_sublist _ _).trans (List.drop_sublist _ _)) h

/-- C5 (amended): `get_history` with a non-empty search term free of the
`LIKE` wildcards `%` and `_` returns exactly the catalog records in which
the term occurs as a case-insensitive (ASCII) substring of filename,
window_name, tags or notes, ordered by timestamp descending and paginated
by limit/offset; with no term it returns all records newest first; when
nothing matches it returns the empty list.  (For terms containing `%` or
`_` the filter is SQL `LIKE '%term%'` matching, not substring
occurrence — see the counterexample.) -/
theorem get_history_search_spec (cat : List ScreenshotRec) (limit offset : Nat) (s : Str)
    (hne : s ≠ []) (hw : noWild s) :
    (get_history cat limit offset (some s)
        = ((List.insertionSort tsGE
            (cat.filter (fun r => recContainsCI s r))).drop offset).take limit)
    ∧ List.Sorted tsGE (get_history cat limit offset (some s))
    ∧ (∀ r ∈ get_history cat limit offset (some s), r ∈ cat ∧ recContainsCI s r = true)
    ∧ (cat.length ≤ limit →
        (get_history cat limit 0 (some s)).Perm
          (cat.filter (fun r => recContainsCI s r)))
    ∧ ((∀ r ∈ cat, recContainsCI s r = false) →
        get_history cat limit offset (some s) = [])
    ∧ List.Sorted tsGE (get_history cat limit offset none)
    ∧ (cat.length ≤ limit → (get_history cat limit 0 none).Perm cat) := by
  have hfeq : cat.filter (fun r => matchesTerm s r)
      = cat.filter (fun r => recContainsCI s r) :=
    List.filter_congr (fun r _ => matchesTerm_eq_contains s hw r)
  have h1 : get_history cat limit offset (some s)
      = ((List.insertionSort tsGE
          (cat.filter (fun r => recContainsCI s r))).drop offset).take limit := by
    rw [get_history_some_eq cat s hne, hfeq]
  refine ⟨h1, ?_, ?_, ?_, ?_, ?_, ?_⟩
  · rw [h1]
    exact sorted_drop_take _ _ _ (List.sorted_insertionSort tsGE _)
  · intro r hr
    rw [h1] at hr
    have hmem : r ∈ List.insertionSort tsGE (cat.filter (fun q => recContainsCI s q)) :=
      ((List.take_sublist _ _).trans (List.drop_sublist _ _)).subset hr
    have hfil : r ∈ cat.filter (fun q => recContainsCI s q) :=
      (List.perm_insertionSort tsGE _).subset hmem
    obtain ⟨hrc, hrp⟩ := List.mem_filter.mp hfil
    exact ⟨hrc, hrp⟩
  · intro hlim
    rw [get_history_some_eq cat s hne, hfeq, List.drop_zero]
    have hlen : (List.insertionSort tsGE
        (cat.filter (fun r => recContainsCI s r))).length ≤ limit := by
      rw [(List.perm_insertionSort tsGE _).length_eq]
      exact le_trans (List.length_filter_le _ _) hlim
    rw [List.take_of_length_le hlen]
    exact List.perm_insertionSort tsGE _
  · intro hall
    have hnil : cat.filter (fun r => matchesTerm s r) = [] := by
      apply List.filter_eq_nil_iff.mpr
      intro r hr
      rw [matchesTerm_eq_contains s hw r, hall r hr]
      simp
    rw [get_history_some_eq cat s hne, hnil]
    simp
  · rw [get_history_none_eq]
    exact sorted_drop_take _ _ _ (List.sorted_insertionSort tsGE _)
  · intro hlim
    rw [get_history_none_eq, List.drop_zero]
    have hlen : (List.insertionSort tsGE cat).length ≤ limit := by
      rw [(List.perm_insertionSort tsGE _).length_eq]
      exact hlim
    rw [List.take_of_length_le hlen]
    exact List.perm_insertionSort tsGE cat

/-- Counterexample for C5 as stated: the search term `a_p` is returned as
matching the record whose filename is `a.png` (the SQL `LIKE` wildcard `_`
matches the dot), although `a_p` does not occur as a case-insensitive
substring of any of its fields. -/
theorem get_history_wildcard_cex :
    get_history [recA] 100 0 (some "a_p".data) = [recA]
    ∧ recContainsCI "a_p".data recA = false := by decide

/-- Witness for C5 (amended) at a concrete catalog and the term `a`. -/
theorem get_history_search_spec_witness :
    (get_history [recA] 100 0 (some "a".data)
        = ((List.insertionSort tsGE
            ([recA].filter (fun r => recContainsCI "a".data r))).drop 0).take 100)
    ∧ List.Sorted tsGE (get_history [recA] 100 0 (some "a".data))
    ∧ (∀ r ∈ get_history [recA] 100 0 (some "a".data),
        r ∈ [recA] ∧ recContainsCI "a".data r = true)
    ∧ ([recA].length ≤ 100 →
        (get_history [recA] 100 0 (some "a".data)).Perm
          ([recA].filter (fun r => recContainsCI "a".data r)))
    ∧ ((∀ r ∈ [recA], recContainsCI "a".data r = false) →
        get_history [recA] 100 0 (some "a".data) = [])
    ∧ List.Sorted tsGE (get_history [recA] 100 0 none)
    ∧ ([recA].length ≤ 100 → (get_history [recA] 100 0 none).Perm [recA]) :=
  get_history_search_spec [recA] 100 0 "a".data (by decide) (by decide)

end Omniscreen
